import Mathlib

/-!
# Verification of the Sia wallet ledger reconciliation engine

A shallow embedding of the wallet reconciliation code (`applyDiff` and
`ReceiveTransactionPoolUpdate` of the `wallet` package), together with proofs
of the properties claimed in the specification of this component.

Modelling notes, matching the Go source:
* `types.UnlockHash` (a 32-byte hash used as wallet address) and
  `types.SiacoinOutputID` are opaque identifiers with decidable equality;
  both are modelled as `Nat`.
* Go maps (`w.keys`, `key.outputs`) are modelled as association lists with
  in-place update and insertion-by-append semantics (`lookupA` / `updateA`).
* The wallet age field is a Go `int`; it is modelled as `Int` (the claims
  involve only small increments, overflow is immaterial).
* A Go panic terminates the call without returning; fallible code is modelled
  with `Except RunPanic`.  In the revert branch of `applyDiff`, a missing
  ledger entry panics in *both* build modes: with `build.DEBUG` set the
  explicit assertion fires, and without it the write
  `key.outputs[scod.ID].spendable = false` dereferences the `nil` pointer
  that Go map indexing returns for an absent key of a `map[...]*knownOutput`.
* The wallet state carries an extra `trace` field, instrumentation that is
  not part of the Go state: it records every `applyDiff` invocation, the
  replacement of the pending diff set, the age adjustment and the
  `notifySubscribers()` call, so that ordering and exactly-once-notification
  properties can be stated.  Theorems about state equality compare the
  source fields (`keys`, `unconfirmedDiffs`, `age`), never the trace.
-/

/-- Lookup in an association list, first binding wins (Go map lookup). -/
def lookupA {α : Type} (k : Nat) : List (Nat × α) → Option α
  | [] => none
  | (k', v) :: rest => if k' = k then some v else lookupA k rest

/-- Update an association list in place; if the key is absent, append the
binding at the end (Go map assignment). -/
def updateA {α : Type} (k : Nat) (v : α) : List (Nat × α) → List (Nat × α)
  | [] => [(k, v)]
  | (k', v') :: rest => if k' = k then (k, v) :: rest else (k', v') :: updateA k v rest

@[simp] theorem lookupA_nil {α : Type} (k : Nat) : lookupA (α := α) k [] = none := rfl

@[simp] theorem lookupA_cons {α : Type} (k k' : Nat) (v : α) (l : List (Nat × α)) :
    lookupA k ((k', v) :: l) = if k' = k then some v else lookupA k l := rfl

@[simp] theorem updateA_nil {α : Type} (k : Nat) (v : α) : updateA k v [] = [(k, v)] := rfl

@[simp] theorem updateA_cons {α : Type} (k k' : Nat) (v v' : α) (l : List (Nat × α)) :
    updateA k v ((k', v') :: l) =
      if k' = k then (k, v) :: l else (k', v') :: updateA k v l := rfl

theorem lookupA_updateA_self {α : Type} (k : Nat) (v : α) (l : List (Nat × α)) :
    lookupA k (updateA k v l) = some v := by
  induction l with
  | nil => simp
  | cons p rest ih =>
    obtain ⟨k', v'⟩ := p
    by_cases h : k' = k <;> simp [h, ih]

theorem lookupA_updateA_ne {α : Type} {k k' : Nat} (h : k' ≠ k) (v : α) (l : List (Nat × α)) :
    lookupA k' (updateA k v l) = lookupA k' l := by
  have h' : k ≠ k' := Ne.symm h
  induction l with
  | nil => simp [h']
  | cons p rest ih =>
    obtain ⟨k₀, v₀⟩ := p
    by_cases h₀ : k₀ = k
    · subst h₀
      simp [h']
    · by_cases h₁ : k₀ = k' <;> simp [h₀, h₁, h, ih]

theorem updateA_updateA_self {α : Type} (k : Nat) (v v' : α) (l : List (Nat × α)) :
    updateA k v (updateA k v' l) = updateA k v l := by
  induction l with
  | nil => simp
  | cons p rest ih =>
    obtain ⟨k₀, v₀⟩ := p
    by_cases h : k₀ = k <;> simp [h, ih]

theorem updateA_self_of_lookupA {α : Type} {k : Nat} {v : α} {l : List (Nat × α)}
    (h : lookupA k l = some v) : updateA k v l = l := by
  induction l with
  | nil => simp at h
  | cons p rest ih =>
    obtain ⟨k₀, v₀⟩ := p
    by_cases h₀ : k₀ = k
    · subst h₀
      simp at h
      simp [h]
    · simp [h₀] at h
      simp [h₀, ih h]

theorem updateA_comm {α : Type} {k₁ k₂ : Nat} (h : k₁ ≠ k₂) (v₁ v₂ : α)
    (l : List (Nat × α)) (hp : (lookupA k₁ l).isSome ∨ (lookupA k₂ l).isSome) :
    updateA k₁ v₁ (updateA k₂ v₂ l) = updateA k₂ v₂ (updateA k₁ v₁ l) := by
  have h' : k₂ ≠ k₁ := Ne.symm h
  induction l with
  | nil => simp at hp
  | cons p rest ih =>
    obtain ⟨k₀, v₀⟩ := p
    by_cases h₁ : k₀ = k₁
    · subst h₁
      simp [h, h']
    · by_cases h₂ : k₀ = k₂
      · subst h₂
        simp [h₁, h, h']
      · have hp' : (lookupA k₁ rest).isSome ∨ (lookupA k₂ rest).isSome := by
          simpa [h₁, h₂] using hp
        simp [h₁, h₂, ih hp']

theorem updateA_length {α : Type} (k : Nat) (v : α) (l : List (Nat × α)) :
    (updateA k v l).length = if (lookupA k l).isSome then l.length else l.length + 1 := by
  induction l with
  | nil => simp
  | cons p rest ih =>
    obtain ⟨k₀, v₀⟩ := p
    by_cases h : k₀ = k
    · simp [h]
    · simp only [updateA_cons, if_neg h, List.length_cons, lookupA_cons, if_neg h, ih]
      by_cases hs : (lookupA k rest).isSome <;> simp [hs]

theorem lookupA_isSome_updateA {α : Type} (k k' : Nat) (v : α) (l : List (Nat × α))
    (h : (lookupA k l).isSome) :
    (lookupA k' (updateA k v l)).isSome = (lookupA k' l).isSome := by
  by_cases hk : k' = k
  · subst hk
    simp [lookupA_updateA_self, h]
  · rw [lookupA_updateA_ne hk]

theorem mem_updateA {α : Type} {p : Nat × α} {k : Nat} {v : α} {l : List (Nat × α)}
    (h : p ∈ updateA k v l) : p = (k, v) ∨ p ∈ l := by
  induction l with
  | nil =>
    simp at h
    exact Or.inl h
  | cons q rest ih =>
    obtain ⟨k₀, v₀⟩ := q
    by_cases h₀ : k₀ = k
    · simp [h₀] at h
      rcases h with h | h
      · exact Or.inl h
      · exact Or.inr (List.mem_cons_of_mem _ h)
    · simp only [updateA_cons, if_neg h₀, List.mem_cons] at h
      rcases h with h | h
      · exact Or.inr (List.mem_cons.mpr (Or.inl h))
      · rcases ih h with h' | h'
        · exact Or.inl h'
        · exact Or.inr (List.mem_cons_of_mem _ h')

theorem updateA_map_fst {α : Type} (k : Nat) (v : α) (l : List (Nat × α)) :
    (updateA k v l).map Prod.fst =
      if (lookupA k l).isSome then l.map Prod.fst else l.map Prod.fst ++ [k] := by
  induction l with
  | nil => simp
  | cons p rest ih =>
    obtain ⟨k₀, v₀⟩ := p
    by_cases h : k₀ = k
    · simp [h]
    · simp only [updateA_cons, if_neg h, List.map_cons, lookupA_cons, if_neg h, ih]
      by_cases hs : (lookupA k rest).isSome <;> simp [hs]

/-- Direction of a diff or of an application pass (`modules.DiffDirection`). -/
inductive DiffDirection : Type
  | apply
  | revert
deriving DecidableEq, Repr

/-- A siacoin output (`types.SiacoinOutput`): a currency value addressed to an
unlock hash.  The value is a `types.Currency`, modelled as `Nat`; the unlock
hash is the wallet address, modelled as an opaque `Nat` identifier. -/
structure SiacoinOutput : Type where
  value : Nat
  unlockHash : Nat
deriving DecidableEq, Repr

/-- A diff (`modules.SiacoinOutputDiff`): one output transitioning between
existing and not existing, tagged with the direction of the event. -/
structure SiacoinOutputDiff : Type where
  direction : DiffDirection
  id : Nat
  siacoinOutput : SiacoinOutput
deriving DecidableEq, Repr

/-- A ledger entry for one output known to the wallet (`wallet.knownOutput`). -/
structure KnownOutput : Type where
  id : Nat
  output : SiacoinOutput
  spendable : Bool
  age : Int
deriving DecidableEq, Repr

/-- A key registry entry (`wallet.key`).  Only the `outputs` map is relevant
to the reconciliation code; the spend conditions and secret keys the Go
struct also holds are never read by it and are omitted. -/
structure Key : Type where
  outputs : List (Nat × KnownOutput)
deriving DecidableEq, Repr

/-- The registry of wallet-controlled addresses (`w.keys`). -/
abbrev KeyMap : Type := List (Nat × Key)

/-- A consensus change (`modules.ConsensusChange`).  The source reads the
confirmed diff list and only the *lengths* of `RevertedBlocks` and
`AppliedBlocks` (`len(cc.RevertedBlocks)` / `len(cc.AppliedBlocks)`), so the
two block lists are modelled by their lengths. -/
structure ConsensusChange : Type where
  siacoinOutputDiffs : List SiacoinOutputDiff
  revertedBlocks : Nat
  appliedBlocks : Nat
deriving DecidableEq, Repr

/-- A transaction (`types.Transaction`), opaque here: the transaction-list
parameter of `ReceiveTransactionPoolUpdate` is bound to the blank identifier
`_` in the source and never read. -/
structure Transaction : Type where
  payload : Nat
deriving DecidableEq, Repr

/-- A Go panic terminating the reconciliation call.
`assertMissingOutput` is the explicit `build.DEBUG` assertion
(`panic("trying to delete an output that doesn't exist?")` in the source);
`nilPointerDereference` is the runtime panic that the non-debug build hits on
the same input, because `key.outputs[scod.ID]` yields a `nil`
`*knownOutput` for an absent key and the write
`key.outputs[scod.ID].spendable = false` dereferences it. -/
inductive RunPanic : Type
  | assertMissingOutput
  | nilPointerDereference
deriving DecidableEq, Repr

/-- Instrumentation event (not part of the Go state): one observable action
of the reconciliation engine. -/
inductive Event : Type
  | applied (dir : DiffDirection) (d : SiacoinOutputDiff)
  | setPending (u : List SiacoinOutputDiff)
  | ageAdjusted (reverted applied : Nat)
  | notified
deriving DecidableEq, Repr

/-- The ledger entry recorded for output `i` under address `a`, if any. -/
def getEntry (ks : KeyMap) (a i : Nat) : Option KnownOutput :=
  match lookupA a ks with
  | none => none
  | some key => lookupA i key.outputs

/-- Write ledger entry `o` for output `i` under address `a` (no-op when the
address is not controlled).  This is the Go map mutation
`key.outputs[scod.ID] = ...` through the registry entry for `a`. -/
def setEntry (ks : KeyMap) (a i : Nat) (o : KnownOutput) : KeyMap :=
  match lookupA a ks with
  | none => ks
  | some key => updateA a { key with outputs := updateA i o key.outputs } ks

theorem setEntry_of_lookupA_none {ks : KeyMap} {a : Nat} (i : Nat) (o : KnownOutput)
    (hk : lookupA a ks = none) : setEntry ks a i o = ks := by
  unfold setEntry
  rw [hk]

theorem setEntry_of_lookupA_some {ks : KeyMap} {a : Nat} {key : Key} (i : Nat) (o : KnownOutput)
    (hk : lookupA a ks = some key) :
    setEntry ks a i o = updateA a { key with outputs := updateA i o key.outputs } ks := by
  unfold setEntry
  rw [hk]

theorem getEntry_setEntry_self {ks : KeyMap} {a : Nat} (i : Nat) (o : KnownOutput)
    (h : (lookupA a ks).isSome) :
    getEntry (setEntry ks a i o) a i = some o := by
  unfold setEntry
  match hk : lookupA a ks with
  | none => rw [hk] at h; simp at h
  | some key => simp [getEntry, lookupA_updateA_self, lookupA_updateA_self i]

theorem getEntry_setEntry_ne {ks : KeyMap} {a i a' i' : Nat} {o : KnownOutput}
    (h : (a', i') ≠ (a, i)) :
    getEntry (setEntry ks a i o) a' i' = getEntry ks a' i' := by
  unfold setEntry
  match hk : lookupA a ks with
  | none => rfl
  | some key =>
    by_cases ha : a' = a
    · subst ha
      have hi : i' ≠ i := by
        intro hi
        exact h (by rw [hi])
      simp [getEntry, lookupA_updateA_self, hk, lookupA_updateA_ne hi]
    · simp [getEntry, lookupA_updateA_ne ha]

theorem setEntry_setEntry_self (ks : KeyMap) (a i : Nat) (o o' : KnownOutput) :
    setEntry (setEntry ks a i o) a i o' = setEntry ks a i o' := by
  unfold setEntry
  match hk : lookupA a ks with
  | none => simp [hk]
  | some key =>
    simp [hk, lookupA_updateA_self, updateA_updateA_self,
      updateA_updateA_self i o' o key.outputs]

theorem setEntry_getEntry_self {ks : KeyMap} {a i : Nat} {o : KnownOutput}
    (h : getEntry ks a i = some o) : setEntry ks a i o = ks := by
  unfold getEntry at h
  match hk : lookupA a ks with
  | none => exact setEntry_of_lookupA_none i o hk
  | some key =>
    rw [hk] at h
    simp only at h
    rw [setEntry_of_lookupA_some i o hk]
    have hkey : ({ key with outputs := updateA i o key.outputs } : Key) = key := by
      cases key
      simp only [Key.mk.injEq]
      exact updateA_self_of_lookupA h
    rw [hkey, updateA_self_of_lookupA hk]

theorem lookupA_isSome_setEntry (ks : KeyMap) (a i : Nat) (o : KnownOutput) (a' : Nat) :
    (lookupA a' (setEntry ks a i o)).isSome = (lookupA a' ks).isSome := by
  unfold setEntry
  match hk : lookupA a ks with
  | none => rfl
  | some key =>
    exact lookupA_isSome_updateA a a' _ ks (by simp [hk])

theorem setEntry_comm {ks : KeyMap} {a i a' i' : Nat} (o o' : KnownOutput)
    (hne : (a, i) ≠ (a', i')) (hp : (getEntry ks a i).isSome ∨ (getEntry ks a' i').isSome) :
    setEntry (setEntry ks a i o) a' i' o' = setEntry (setEntry ks a' i' o') a i o := by
  by_cases ha : a = a'
  · subst ha
    have hi : i ≠ i' := by
      intro hi
      exact hne (by rw [hi])
    match hk : lookupA a ks with
    | none =>
      rw [setEntry_of_lookupA_none i o hk, setEntry_of_lookupA_none i' o' hk,
        setEntry_of_lookupA_none i o hk]
    | some key =>
      have hp' : (lookupA i key.outputs).isSome ∨ (lookupA i' key.outputs).isSome := by
        simpa [getEntry, hk] using hp
      rw [setEntry_of_lookupA_some i o hk, setEntry_of_lookupA_some i' o' hk]
      have hka : lookupA a (updateA a { key with outputs := updateA i o key.outputs } ks)
          = some { key with outputs := updateA i o key.outputs } := lookupA_updateA_self a _ ks
      have hkb : lookupA a (updateA a { key with outputs := updateA i' o' key.outputs } ks)
          = some { key with outputs := updateA i' o' key.outputs } := lookupA_updateA_self a _ ks
      rw [setEntry_of_lookupA_some i' o' hka, setEntry_of_lookupA_some i o hkb]
      simp only [updateA_updateA_self]
      rw [updateA_comm hi o o' key.outputs hp']
  · match hk : lookupA a ks with
    | none =>
      rw [setEntry_of_lookupA_none i o hk]
      match hk' : lookupA a' ks with
      | none =>
        rw [setEntry_of_lookupA_none i' o' hk', setEntry_of_lookupA_none i o hk]
      | some key' =>
        rw [setEntry_of_lookupA_some i' o' hk',
          setEntry_of_lookupA_none i o (by rw [lookupA_updateA_ne ha, hk])]
    | some key =>
      rw [setEntry_of_lookupA_some i o hk]
      match hk' : lookupA a' ks with
      | none =>
        rw [setEntry_of_lookupA_none i' o'
            (by rw [lookupA_updateA_ne (Ne.symm ha), hk']),
          setEntry_of_lookupA_none i' o' hk', setEntry_of_lookupA_some i o hk]
      | some key' =>
        have hk1 : lookupA a' (updateA a { key with outputs := updateA i o key.outputs } ks)
            = some key' := by
          rw [lookupA_updateA_ne (Ne.symm ha), hk']
        have hk2 : lookupA a (updateA a' { key' with outputs := updateA i' o' key'.outputs } ks)
            = some key := by
          rw [lookupA_updateA_ne ha, hk]
        rw [setEntry_of_lookupA_some i' o' hk1, setEntry_of_lookupA_some i' o' hk',
          setEntry_of_lookupA_some i o hk2,
          updateA_comm (Ne.symm ha) _ _ ks (by simp [hk])]

/-- `target d` is the ledger cell a diff addresses: the pair of the
wallet address carried in its output payload and the output identifier. -/
def target (d : SiacoinOutputDiff) : Nat × Nat :=
  (d.siacoinOutput.unlockHash, d.id)

/-- The per-entry transition performed by `applyDiff` once the address is
known to be wallet-controlled: given the current ledger entry for the
diff's identifier (if any), return `none` for "no write", `some o` for
"write `o`", or a panic.  Mirrors the two branches of the Go source:

* `scod.Direction == dir`: an existing entry is re-activated when
  unspendable and left alone otherwise; a missing entry is created with
  `spendable = true, age = 0`.
* `scod.Direction != dir`: a missing entry panics (the `build.DEBUG`
  assertion, or the nil-pointer write in a non-debug build); an existing
  entry is marked unspendable. -/
def diffStep (debug : Bool) (scod : SiacoinOutputDiff) (dir : DiffDirection) :
    Option KnownOutput → Except RunPanic (Option KnownOutput) :=
  fun cur =>
    if scod.direction = dir then
      match cur with
      | some output =>
        if output.spendable then .ok none
        else .ok (some { output with spendable := true })
      | none =>
        .ok (some { id := scod.id, output := scod.siacoinOutput, spendable := true, age := 0 })
    else
      match cur with
      | none =>
        .error (if debug then RunPanic.assertMissingOutput else RunPanic.nilPointerDereference)
      | some output => .ok (some { output with spendable := false })

/-- The registry-level effect of `(w *Wallet) applyDiff(scod, dir)`: look up
the registry entry for the diff's address (`w.keys[scod.SiacoinOutput.UnlockHash]`),
return unchanged if the wallet does not control it, otherwise perform the
entry transition of `diffStep` on `key.outputs[scod.ID]`. -/
def applyDiffKeys (debug : Bool) (ks : KeyMap) (scod : SiacoinOutputDiff)
    (dir : DiffDirection) : Except RunPanic KeyMap :=
  match lookupA scod.siacoinOutput.unlockHash ks with
  | none => .ok ks
  | some key =>
    match diffStep debug scod dir (lookupA scod.id key.outputs) with
    | .error e => .error e
    | .ok none => .ok ks
    | .ok (some o') => .ok (setEntry ks scod.siacoinOutput.unlockHash scod.id o')

/-- `applyDiffKeys` in terms of `getEntry`. -/
theorem applyDiffKeys_char (debug : Bool) (ks : KeyMap) (scod : SiacoinOutputDiff)
    (dir : DiffDirection) :
    applyDiffKeys debug ks scod dir =
      if (lookupA scod.siacoinOutput.unlockHash ks).isSome then
        match diffStep debug scod dir (getEntry ks scod.siacoinOutput.unlockHash scod.id) with
        | .error e => .error e
        | .ok none => .ok ks
        | .ok (some o') => .ok (setEntry ks scod.siacoinOutput.unlockHash scod.id o')
      else .ok ks := by
  unfold applyDiffKeys getEntry
  match hk : lookupA scod.siacoinOutput.unlockHash ks with
  | none => simp
  | some key => simp

/-- A successful `applyDiffKeys` preserves which addresses are controlled. -/
theorem applyDiffKeys_isSome {debug : Bool} {ks ks' : KeyMap} {scod : SiacoinOutputDiff}
    {dir : DiffDirection} (h : applyDiffKeys debug ks scod dir = .ok ks') (a : Nat) :
    (lookupA a ks').isSome = (lookupA a ks).isSome := by
  unfold applyDiffKeys at h
  match hk : lookupA scod.siacoinOutput.unlockHash ks with
  | none =>
    rw [hk] at h
    simp only [Except.ok.injEq] at h
    rw [h]
  | some key =>
    simp only [hk] at h
    match hs : diffStep debug scod dir (lookupA scod.id key.outputs) with
    | .error e => rw [hs] at h; exact Except.noConfusion h
    | .ok none =>
      rw [hs] at h
      simp only [Except.ok.injEq] at h
      rw [h]
    | .ok (some o') =>
      rw [hs] at h
      simp only [Except.ok.injEq] at h
      rw [← h]
      exact lookupA_isSome_setEntry ks _ _ _ a

/-- A successful `applyDiffKeys` leaves every ledger cell other than the
diff's target unchanged. -/
theorem applyDiffKeys_getEntry_ne {debug : Bool} {ks ks' : KeyMap} {scod : SiacoinOutputDiff}
    {dir : DiffDirection} (h : applyDiffKeys debug ks scod dir = .ok ks')
    {a i : Nat} (hne : (a, i) ≠ target scod) :
    getEntry ks' a i = getEntry ks a i := by
  unfold applyDiffKeys at h
  match hk : lookupA scod.siacoinOutput.unlockHash ks with
  | none =>
    rw [hk] at h
    simp only [Except.ok.injEq] at h
    rw [h]
  | some key =>
    simp only [hk] at h
    match hs : diffStep debug scod dir (lookupA scod.id key.outputs) with
    | .error e => rw [hs] at h; exact Except.noConfusion h
    | .ok none =>
      rw [hs] at h
      simp only [Except.ok.injEq] at h
      rw [h]
    | .ok (some o') =>
      rw [hs] at h
      simp only [Except.ok.injEq] at h
      rw [← h]
      exact getEntry_setEntry_ne hne

/-- Wallet state (`wallet.Wallet`), restricted to the fields the
reconciliation code reads or writes: the key registry `keys`, the pending
unconfirmed diff set `unconfirmedDiffs` and the age counter `age`.
`trace` is instrumentation recording the observable actions (see the file
header); it is not part of the Go state. -/
structure Wallet : Type where
  keys : KeyMap
  unconfirmedDiffs : List SiacoinOutputDiff
  age : Int
  trace : List Event
deriving DecidableEq, Repr

/-- The source-state projection of a wallet: the three Go fields, without
the instrumentation trace.  Two wallets are the same Go state iff their
`obs` agree. -/
def Wallet.obs (w : Wallet) : KeyMap × List SiacoinOutputDiff × Int :=
  (w.keys, w.unconfirmedDiffs, w.age)

/-- `(w *Wallet) applyDiff(scod modules.SiacoinOutputDiff, dir modules.DiffDirection)`:
take the output in the diff and add or delete it from the set of outputs
known to the wallet, as described by `applyDiffKeys`; no other wallet field
is touched.  The `debug` flag is the package-level constant `build.DEBUG`.
The call is recorded in the instrumentation trace. -/
def Wallet.applyDiff (debug : Bool) (w : Wallet) (scod : SiacoinOutputDiff)
    (dir : DiffDirection) : Except RunPanic Wallet :=
  (applyDiffKeys debug w.keys scod dir).map fun ks =>
    { w with keys := ks, trace := w.trace ++ [Event.applied dir scod] }

/-- `(w *Wallet) ReceiveTransactionPoolUpdate(cc, _, unconfirmedSiacoinDiffs)`:
revert every diff of the previous pending set, apply every confirmed diff,
replace the pending set and apply its diffs, adjust the age by the block
counts, and notify the subscribers.  The transaction-list parameter is bound
to the blank identifier in the source and is never read.  The Go method runs
under the wallet lock; the embedding is the body of that critical section.
`notifySubscribers()` is modelled by recording `Event.notified`. -/
def Wallet.receiveTransactionPoolUpdate (debug : Bool) (w : Wallet) (cc : ConsensusChange)
    (txns : List Transaction) (unconfirmedSiacoinDiffs : List SiacoinOutputDiff) :
    Except RunPanic Wallet := do
  -- Remove all of the current unconfirmed diffs - they are being replaced wholesale.
  let w1 ← w.unconfirmedDiffs.foldlM (fun v diff => v.applyDiff debug diff DiffDirection.revert) w
  -- Adjust the confirmed set of diffs.
  let w2 ← cc.siacoinOutputDiffs.foldlM (fun v scod => v.applyDiff debug scod DiffDirection.apply) w1
  -- Add all of the unconfirmed diffs to the wallet.
  let w3 := { w2 with unconfirmedDiffs := unconfirmedSiacoinDiffs,
                      trace := w2.trace ++ [Event.setPending unconfirmedSiacoinDiffs] }
  let w4 ← w3.unconfirmedDiffs.foldlM (fun v diff => v.applyDiff debug diff DiffDirection.apply) w3
  -- Update the wallet age.
  let w5 := { w4 with age := w4.age - (cc.revertedBlocks : Int) + (cc.appliedBlocks : Int),
                      trace := w4.trace ++ [Event.ageAdjusted cc.revertedBlocks cc.appliedBlocks] }
  pure { w5 with trace := w5.trace ++ [Event.notified] }

/-- The registry-level effect of one application pass: fold `applyDiffKeys`
with direction `dir` over a list of diffs. -/
def applyDiffsKeys (debug : Bool) (dir : DiffDirection) (ds : List SiacoinOutputDiff)
    (ks : KeyMap) : Except RunPanic KeyMap :=
  ds.foldlM (fun ks' d => applyDiffKeys debug ks' d dir) ks

@[simp] theorem applyDiffsKeys_nil (debug : Bool) (dir : DiffDirection) (ks : KeyMap) :
    applyDiffsKeys debug dir [] ks = .ok ks := rfl

theorem applyDiffsKeys_cons (debug : Bool) (dir : DiffDirection) (d : SiacoinOutputDiff)
    (ds : List SiacoinOutputDiff) (ks : KeyMap) :
    applyDiffsKeys debug dir (d :: ds) ks =
      match applyDiffKeys debug ks d dir with
      | .error e => .error e
      | .ok ks' => applyDiffsKeys debug dir ds ks' := by
  unfold applyDiffsKeys
  rw [List.foldlM_cons]
  match h : applyDiffKeys debug ks d dir with
  | .error e => rfl
  | .ok ks' => rfl

theorem applyDiffsKeys_append (debug : Bool) (dir : DiffDirection)
    (ds₁ ds₂ : List SiacoinOutputDiff) (ks : KeyMap) :
    applyDiffsKeys debug dir (ds₁ ++ ds₂) ks =
      match applyDiffsKeys debug dir ds₁ ks with
      | .error e => .error e
      | .ok ks' => applyDiffsKeys debug dir ds₂ ks' := by
  induction ds₁ generalizing ks with
  | nil => simp
  | cons d ds ih =>
    rw [List.cons_append, applyDiffsKeys_cons, applyDiffsKeys_cons]
    match h : applyDiffKeys debug ks d dir with
    | .error e => rfl
    | .ok ks' => exact ih ks'

/-- A successful pass preserves which addresses are controlled. -/
theorem applyDiffsKeys_isSome {debug : Bool} {dir : DiffDirection}
    {ds : List SiacoinOutputDiff} {ks ks' : KeyMap}
    (h : applyDiffsKeys debug dir ds ks = .ok ks') (a : Nat) :
    (lookupA a ks').isSome = (lookupA a ks).isSome := by
  induction ds generalizing ks with
  | nil =>
    simp only [applyDiffsKeys_nil, Except.ok.injEq] at h
    rw [h]
  | cons d ds ih =>
    rw [applyDiffsKeys_cons] at h
    match h₁ : applyDiffKeys debug ks d dir with
    | .error e => rw [h₁] at h; exact Except.noConfusion h
    | .ok ks₁ =>
      rw [h₁] at h
      rw [ih h, applyDiffKeys_isSome h₁]

/-- A successful pass leaves every ledger cell that no diff of the list
targets unchanged. -/
theorem applyDiffsKeys_getEntry_ne {debug : Bool} {dir : DiffDirection}
    {ds : List SiacoinOutputDiff} {ks ks' : KeyMap}
    (h : applyDiffsKeys debug dir ds ks = .ok ks') {a i : Nat}
    (hne : ∀ d ∈ ds, (a, i) ≠ target d) :
    getEntry ks' a i = getEntry ks a i := by
  induction ds generalizing ks with
  | nil =>
    simp only [applyDiffsKeys_nil, Except.ok.injEq] at h
    rw [h]
  | cons d ds ih =>
    rw [applyDiffsKeys_cons] at h
    match h₁ : applyDiffKeys debug ks d dir with
    | .error e => rw [h₁] at h; exact Except.noConfusion h
    | .ok ks₁ =>
      rw [h₁] at h
      rw [ih h (fun e he => hne e (List.mem_cons_of_mem _ he)),
        applyDiffKeys_getEntry_ne h₁ (hne d (List.mem_cons_self d ds))]


@[simp] theorem except_bind_ok {ε α β : Type} (a : α) (f : α → Except ε β) :
    (Except.ok a : Except ε α) >>= f = f a := rfl

@[simp] theorem except_bind_error {ε α β : Type} (e : ε) (f : α → Except ε β) :
    (Except.error e : Except ε α) >>= f = .error e := rfl

@[simp] theorem except_map_ok {ε α β : Type} (f : α → β) (a : α) :
    (Except.ok a : Except ε α).map f = .ok (f a) := rfl

@[simp] theorem except_map_error {ε α β : Type} (f : α → β) (e : ε) :
    (Except.error e : Except ε α).map f = .error e := rfl

/-- A wallet-level application pass is the registry-level pass plus the
trace of the calls; no other field changes. -/
theorem foldl_applyDiff_char (debug : Bool) (dir : DiffDirection)
    (ds : List SiacoinOutputDiff) (w : Wallet) :
    ds.foldlM (fun v diff => v.applyDiff debug diff dir) w =
      (applyDiffsKeys debug dir ds w.keys).map fun ks =>
        { keys := ks, unconfirmedDiffs := w.unconfirmedDiffs, age := w.age,
          trace := w.trace ++ ds.map (Event.applied dir) } := by
  induction ds generalizing w with
  | nil =>
    simp only [List.foldlM_nil, applyDiffsKeys_nil, except_map_ok, List.map_nil,
      List.append_nil]
    rfl
  | cons d ds ih =>
    rw [List.foldlM_cons, applyDiffsKeys_cons]
    match h : applyDiffKeys debug w.keys d dir with
    | .error e =>
      have hw : w.applyDiff debug d dir = .error e := by
        unfold Wallet.applyDiff
        rw [h]
        rfl
      simp only [hw, h, except_bind_error, except_map_error]
    | .ok ks₁ =>
      have hw : w.applyDiff debug d dir =
          .ok { w with keys := ks₁, trace := w.trace ++ [Event.applied dir d] } := by
        unfold Wallet.applyDiff
        rw [h]
        rfl
      simp only [hw, h, except_bind_ok]
      rw [ih]
      simp only [List.map_cons, List.append_assoc, List.singleton_append]

/-- `ReceiveTransactionPoolUpdate`, characterised: a successful call chains
the three registry-level passes (revert the previous pending set, apply the
confirmed diffs, apply the new pending set), stores the new pending set,
shifts the age by the two block counts, and appends to the trace, in that
order, the revert events for the old pending set, the apply events for the
confirmed diffs, the pending-set replacement, the apply events for the new
pending set, the age adjustment and the single notification; a panic in any
pass aborts the call. -/
theorem receiveTPU_char (debug : Bool) (w : Wallet) (cc : ConsensusChange)
    (txns : List Transaction) (u : List SiacoinOutputDiff) :
    w.receiveTransactionPoolUpdate debug cc txns u =
      match applyDiffsKeys debug DiffDirection.revert w.unconfirmedDiffs w.keys with
      | .error e => .error e
      | .ok ks₁ =>
        match applyDiffsKeys debug DiffDirection.apply cc.siacoinOutputDiffs ks₁ with
        | .error e => .error e
        | .ok ks₂ =>
          match applyDiffsKeys debug DiffDirection.apply u ks₂ with
          | .error e => .error e
          | .ok ks₃ =>
            .ok { keys := ks₃, unconfirmedDiffs := u,
                  age := w.age - (cc.revertedBlocks : Int) + (cc.appliedBlocks : Int),
                  trace := w.trace
                    ++ w.unconfirmedDiffs.map (Event.applied DiffDirection.revert)
                    ++ cc.siacoinOutputDiffs.map (Event.applied DiffDirection.apply)
                    ++ [Event.setPending u]
                    ++ u.map (Event.applied DiffDirection.apply)
                    ++ [Event.ageAdjusted cc.revertedBlocks cc.appliedBlocks]
                    ++ [Event.notified] } := by
  unfold Wallet.receiveTransactionPoolUpdate
  rw [foldl_applyDiff_char]
  match h₁ : applyDiffsKeys debug DiffDirection.revert w.unconfirmedDiffs w.keys with
  | .error e => simp only [h₁, except_map_error, except_bind_error]
  | .ok ks₁ =>
    simp only [h₁, except_map_ok, except_bind_ok]
    rw [foldl_applyDiff_char]
    match h₂ : applyDiffsKeys debug DiffDirection.apply cc.siacoinOutputDiffs ks₁ with
    | .error e => simp only [h₂, except_map_error, except_bind_error]
    | .ok ks₂ =>
      simp only [h₂, except_map_ok, except_bind_ok]
      rw [foldl_applyDiff_char]
      match h₃ : applyDiffsKeys debug DiffDirection.apply u ks₂ with
      | .error e => simp only [h₃, except_map_error, except_bind_error]
      | .ok ks₃ =>
        simp only [h₃, except_map_ok, except_bind_ok]
        simp only [List.append_assoc, List.singleton_append]
        rfl

/-- The spendable flag a ledger entry must carry for a diff's application to
be exactly invertible: `false` for an apply-direction diff (it will flip the
flag to `true`), `true` for a revert-direction diff (it will flip the flag
to `false`). -/
def revertFlag : DiffDirection → Bool
  | .apply => false
  | .revert => true

/-- Exact-inversion condition for one diff against a registry: either the
wallet does not control the diff's address (both passes are no-ops), or a
ledger entry exists at the diff's target whose spendable flag is opposite to
the flag the apply pass will write.  Under this condition a forward
application is a pure flag flip, which the revert pass undoes exactly. -/
def okCondB (ks : KeyMap) (d : SiacoinOutputDiff) : Bool :=
  if (lookupA d.siacoinOutput.unlockHash ks).isSome then
    match getEntry ks d.siacoinOutput.unlockHash d.id with
    | none => false
    | some o => o.spendable == revertFlag d.direction
  else true

theorem okCondB_congr {ks ks' : KeyMap} (e : SiacoinOutputDiff)
    (h1 : (lookupA e.siacoinOutput.unlockHash ks').isSome
            = (lookupA e.siacoinOutput.unlockHash ks).isSome)
    (h2 : getEntry ks' e.siacoinOutput.unlockHash e.id
            = getEntry ks e.siacoinOutput.unlockHash e.id) :
    okCondB ks' e = okCondB ks e := by
  unfold okCondB
  rw [h1, h2]


/-- Under the inversion condition, at a controlled address, the apply pass
performs a pure flag flip at the diff's target, and the revert pass on any
registry exposing the flipped entry restores the original entry. -/
theorem apply_revert_gen (debug : Bool) {ks : KeyMap} {d : SiacoinOutputDiff}
    (hsome : (lookupA d.siacoinOutput.unlockHash ks).isSome)
    (hc : okCondB ks d = true) :
    ∃ o : KnownOutput,
      getEntry ks d.siacoinOutput.unlockHash d.id = some o ∧
      o.spendable = revertFlag d.direction ∧
      applyDiffKeys debug ks d DiffDirection.apply =
        .ok (setEntry ks d.siacoinOutput.unlockHash d.id { o with spendable := !o.spendable }) ∧
      (∀ ks₂ : KeyMap, (lookupA d.siacoinOutput.unlockHash ks₂).isSome →
        getEntry ks₂ d.siacoinOutput.unlockHash d.id = some { o with spendable := !o.spendable } →
        applyDiffKeys debug ks₂ d DiffDirection.revert =
          .ok (setEntry ks₂ d.siacoinOutput.unlockHash d.id o)) := by
  unfold okCondB at hc
  rw [if_pos hsome] at hc
  match hge : getEntry ks d.siacoinOutput.unlockHash d.id with
  | none => rw [hge] at hc; exact absurd hc (by simp)
  | some o =>
    rw [hge] at hc
    have hsp : o.spendable = revertFlag d.direction := by
      simpa using hc
    refine ⟨o, rfl, hsp, ?_, ?_⟩
    · rw [applyDiffKeys_char, if_pos hsome, hge]
      obtain ⟨oi, oo, osp, oa⟩ := o
      match hdir : d.direction with
      | .apply =>
        rw [hdir] at hsp
        simp only [revertFlag] at hsp
        subst hsp
        simp [diffStep, hdir]
      | .revert =>
        rw [hdir] at hsp
        simp only [revertFlag] at hsp
        subst hsp
        simp [diffStep, hdir]
    · intro ks₂ h₂ hge₂
      rw [applyDiffKeys_char, if_pos h₂, hge₂]
      obtain ⟨oi, oo, osp, oa⟩ := o
      match hdir : d.direction with
      | .apply =>
        rw [hdir] at hsp
        simp only [revertFlag] at hsp
        subst hsp
        simp [diffStep, hdir]
      | .revert =>
        rw [hdir] at hsp
        simp only [revertFlag] at hsp
        subst hsp
        simp [diffStep, hdir]

/-- Applying one diff commutes with an in-place write at a different,
existing ledger cell. -/
theorem applyDiffKeys_setEntry_comm {debug : Bool} {dir : DiffDirection}
    {ks : KeyMap} {e : SiacoinOutputDiff} {a i : Nat} (o : KnownOutput)
    (hne : (a, i) ≠ target e) (ha : (lookupA a ks).isSome)
    (hp : (getEntry ks a i).isSome) :
    applyDiffKeys debug (setEntry ks a i o) e dir =
      (applyDiffKeys debug ks e dir).map (fun ks' => setEntry ks' a i o) := by
  rw [applyDiffKeys_char, applyDiffKeys_char,
    lookupA_isSome_setEntry ks a i o e.siacoinOutput.unlockHash,
    getEntry_setEntry_ne (show (e.siacoinOutput.unlockHash, e.id) ≠ (a, i) from
      fun hq => hne hq.symm)]
  by_cases hk : (lookupA e.siacoinOutput.unlockHash ks).isSome
  · rw [if_pos hk, if_pos hk]
    match hs : diffStep debug e dir (getEntry ks e.siacoinOutput.unlockHash e.id) with
    | .error err => rfl
    | .ok none => rfl
    | .ok (some o') =>
      simp only [except_map_ok, Except.ok.injEq]
      exact setEntry_comm o o' hne (Or.inl hp)
  · rw [if_neg hk, if_neg hk, except_map_ok]

/-- A whole pass commutes with an in-place write at an existing ledger cell
none of its diffs targets. -/
theorem applyDiffsKeys_setEntry_comm {debug : Bool} {dir : DiffDirection} :
    ∀ (ds : List SiacoinOutputDiff) (ks : KeyMap) (a i : Nat) (o : KnownOutput),
      (∀ e ∈ ds, (a, i) ≠ target e) → (lookupA a ks).isSome →
      (getEntry ks a i).isSome →
      applyDiffsKeys debug dir ds (setEntry ks a i o) =
        (applyDiffsKeys debug dir ds ks).map (fun ks' => setEntry ks' a i o)
  | [], ks, a, i, o, _, _, _ => by simp
  | e :: ds, ks, a, i, o, hne, ha, hp => by
    rw [applyDiffsKeys_cons, applyDiffsKeys_cons,
      applyDiffKeys_setEntry_comm o (hne e (List.mem_cons_self e ds)) ha hp]
    match h₁ : applyDiffKeys debug ks e dir with
    | .error err => rfl
    | .ok ks₁ =>
      simp only [except_map_ok]
      have ha₁ : (lookupA a ks₁).isSome = true := by
        rw [applyDiffKeys_isSome h₁ a]; exact ha
      have hp₁ : (getEntry ks₁ a i).isSome = true := by
        rw [applyDiffKeys_getEntry_ne h₁ (hne e (List.mem_cons_self e ds))]; exact hp
      exact applyDiffsKeys_setEntry_comm ds ks₁ a i o
        (fun e' he' => hne e' (List.mem_cons_of_mem _ he')) ha₁ hp₁

/-- The unwind cancellation at the registry level: when the diffs of the
pending set target pairwise-distinct ledger cells and each satisfies the
inversion condition, the forward pass succeeds and the revert pass (run, as
the source does, in the same forward order) restores the registry exactly. -/
theorem unwind_cancels (debug : Bool) :
    ∀ (U : List SiacoinOutputDiff) (ks : KeyMap),
      (U.map target).Nodup → (∀ d ∈ U, okCondB ks d = true) →
      ∃ ks', applyDiffsKeys debug DiffDirection.apply U ks = .ok ks' ∧
             applyDiffsKeys debug DiffDirection.revert U ks' = .ok ks
  | [], ks, _, _ => ⟨ks, rfl, rfl⟩
  | d :: ds, ks, hnd, hcond => by
    rw [List.map_cons, List.nodup_cons] at hnd
    obtain ⟨hnotmem, hnd'⟩ := hnd
    have htne : ∀ e ∈ ds, (d.siacoinOutput.unlockHash, d.id) ≠ target e := by
      intro e he hq
      exact hnotmem (by rw [show target d = target e from hq]; exact List.mem_map_of_mem target he)
    by_cases hsome : (lookupA d.siacoinOutput.unlockHash ks).isSome
    · obtain ⟨o, hge, hsp, happly, hrev⟩ :=
        apply_revert_gen debug hsome (hcond d (List.mem_cons_self d ds))
      set v : KnownOutput := { o with spendable := !o.spendable } with hv
      set ks₁ : KeyMap := setEntry ks d.siacoinOutput.unlockHash d.id v with hks₁
      have ha₁ : ∀ a : Nat, (lookupA a ks₁).isSome = (lookupA a ks).isSome := by
        intro a
        exact lookupA_isSome_setEntry ks _ _ _ a
      have hge₁ : getEntry ks₁ d.siacoinOutput.unlockHash d.id = some v :=
        getEntry_setEntry_self d.id v hsome
      have hcond₁ : ∀ e ∈ ds, okCondB ks₁ e = true := by
        intro e he
        rw [okCondB_congr e (ha₁ e.siacoinOutput.unlockHash)
          (getEntry_setEntry_ne (fun hq => htne e he hq.symm))]
        exact hcond e (List.mem_cons_of_mem _ he)
      obtain ⟨ks₂, happlyDs, hrevDs⟩ := unwind_cancels debug ds ks₁ hnd' hcond₁
      refine ⟨ks₂, ?_, ?_⟩
      · rw [applyDiffsKeys_cons, happly]
        exact happlyDs
      · have hsome₂ : (lookupA d.siacoinOutput.unlockHash ks₂).isSome := by
          rw [applyDiffsKeys_isSome happlyDs, ha₁]
          exact hsome
        have hge₂ : getEntry ks₂ d.siacoinOutput.unlockHash d.id = some v := by
          rw [applyDiffsKeys_getEntry_ne happlyDs htne, hge₁]
        rw [applyDiffsKeys_cons, hrev ks₂ hsome₂ hge₂]
        show applyDiffsKeys debug DiffDirection.revert ds
          (setEntry ks₂ d.siacoinOutput.unlockHash d.id o) = Except.ok ks
        rw [applyDiffsKeys_setEntry_comm ds ks₂ _ _ o htne hsome₂ (by rw [hge₂]; rfl),
          hrevDs, except_map_ok, hks₁, setEntry_setEntry_self, setEntry_getEntry_self hge]
    · have happly : applyDiffKeys debug ks d DiffDirection.apply = .ok ks := by
        rw [applyDiffKeys_char, if_neg hsome]
      obtain ⟨ks', happlyDs, hrevDs⟩ := unwind_cancels debug ds ks hnd'
        (fun e he => hcond e (List.mem_cons_of_mem _ he))
      refine ⟨ks', ?_, ?_⟩
      · rw [applyDiffsKeys_cons, happly]
        exact happlyDs
      · have hsome' : ¬(lookupA d.siacoinOutput.unlockHash ks').isSome := by
          rw [applyDiffsKeys_isSome happlyDs]
          exact hsome
        have hrevd : applyDiffKeys debug ks' d DiffDirection.revert = .ok ks' := by
          rw [applyDiffKeys_char, if_neg hsome']
        rw [applyDiffsKeys_cons, hrevd]
        exact hrevDs

/-- Unfolding helper: a wallet-level `applyDiff` from a known registry-level
result. -/
theorem applyDiff_of_keys {debug : Bool} {w : Wallet} {scod : SiacoinOutputDiff}
    {dir : DiffDirection} {ks' : KeyMap}
    (h : applyDiffKeys debug w.keys scod dir = .ok ks') :
    w.applyDiff debug scod dir =
      .ok { w with keys := ks', trace := w.trace ++ [Event.applied dir scod] } := by
  unfold Wallet.applyDiff
  rw [h]
  rfl

/-- Unfolding helper: a wallet-level `applyDiff` panic from a known
registry-level panic. -/
theorem applyDiff_of_keys_error {debug : Bool} {w : Wallet} {scod : SiacoinOutputDiff}
    {dir : DiffDirection} {e : RunPanic}
    (h : applyDiffKeys debug w.keys scod dir = .error e) :
    w.applyDiff debug scod dir = .error e := by
  unfold Wallet.applyDiff
  rw [h]
  rfl

/-- Inversion helper: a successful wallet-level `applyDiff` is a successful
registry-level application plus one trace event. -/
theorem applyDiff_ok_inv {debug : Bool} {w w' : Wallet} {scod : SiacoinOutputDiff}
    {dir : DiffDirection} (h : w.applyDiff debug scod dir = .ok w') :
    applyDiffKeys debug w.keys scod dir = .ok w'.keys ∧
      w'.unconfirmedDiffs = w.unconfirmedDiffs ∧ w'.age = w.age ∧
      w'.trace = w.trace ++ [Event.applied dir scod] := by
  unfold Wallet.applyDiff at h
  match hk : applyDiffKeys debug w.keys scod dir with
  | .error e => rw [hk] at h; exact Except.noConfusion h
  | .ok ks' =>
    rw [hk] at h
    simp only [except_map_ok, Except.ok.injEq] at h
    rw [← h]
    exact ⟨rfl, rfl, rfl, rfl⟩

/-- Number of ledger entries recorded under an address (0 when the address
is not controlled). -/
def outputsCount (ks : KeyMap) (a : Nat) : Nat :=
  match lookupA a ks with
  | none => 0
  | some key => key.outputs.length

theorem outputsCount_of_lookupA_some {ks : KeyMap} {a : Nat} {key : Key}
    (hk : lookupA a ks = some key) : outputsCount ks a = key.outputs.length := by
  unfold outputsCount
  rw [hk]

theorem outputsCount_setEntry {ks : KeyMap} {a : Nat} {key : Key}
    (hk : lookupA a ks = some key) (i : Nat) (o : KnownOutput) :
    outputsCount (setEntry ks a i o) a =
      if (lookupA i key.outputs).isSome then key.outputs.length
      else key.outputs.length + 1 := by
  rw [setEntry_of_lookupA_some i o hk,
    outputsCount_of_lookupA_some (lookupA_updateA_self a _ ks)]
  exact updateA_length i o key.outputs

/-- C9.  For every diff whose address is not a wallet-controlled address,
`applyDiff` is a no-op in both directions: it returns without creating,
modifying, or deleting any ledger entry, and without raising an error. -/
theorem c9_unknown_address_noop (debug : Bool) (w : Wallet) (scod : SiacoinOutputDiff)
    (dir : DiffDirection) (hunk : lookupA scod.siacoinOutput.unlockHash w.keys = none) :
    ∃ w', w.applyDiff debug scod dir = .ok w' ∧ w'.keys = w.keys ∧
      w'.unconfirmedDiffs = w.unconfirmedDiffs ∧ w'.age = w.age := by
  have hks : applyDiffKeys debug w.keys scod dir = .ok w.keys := by
    unfold applyDiffKeys
    rw [hunk]
  exact ⟨_, applyDiff_of_keys hks, rfl, rfl, rfl⟩

/-- C10.  The transaction-list parameter of `ReceiveTransactionPoolUpdate`
has no effect on any observable result: two calls that agree on the
consensus change and the unconfirmed diff set but differ arbitrarily in the
transaction list return identical results (state and notification
behaviour included). -/
theorem c10_transactions_irrelevant (debug : Bool) (w : Wallet) (cc : ConsensusChange)
    (txns₁ txns₂ : List Transaction) (u : List SiacoinOutputDiff) :
    w.receiveTransactionPoolUpdate debug cc txns₁ u =
      w.receiveTransactionPoolUpdate debug cc txns₂ u := rfl

/-- C8.  Age bookkeeping: `applyDiff` never modifies the Age Counter, and a
completed `ReceiveTransactionPoolUpdate` call with reverted/applied block
counts `(r, a)` changes the Age Counter by exactly `a - r`, regardless of
the contents of the confirmed and unconfirmed diff sets. -/
theorem c8_age_counter (debug : Bool) (w : Wallet) :
    (∀ (scod : SiacoinOutputDiff) (dir : DiffDirection) (w' : Wallet),
        w.applyDiff debug scod dir = .ok w' → w'.age = w.age) ∧
    (∀ (cc : ConsensusChange) (txns : List Transaction) (u : List SiacoinOutputDiff)
        (w' : Wallet),
        w.receiveTransactionPoolUpdate debug cc txns u = .ok w' →
        w'.age = w.age + ((cc.appliedBlocks : Int) - (cc.revertedBlocks : Int))) := by
  constructor
  · intro scod dir w' h
    exact (applyDiff_ok_inv h).2.2.1
  · intro cc txns u w' h
    rw [receiveTPU_char] at h
    match h₁ : applyDiffsKeys debug DiffDirection.revert w.unconfirmedDiffs w.keys with
    | .error e => rw [h₁] at h; exact Except.noConfusion h
    | .ok ks₁ =>
      simp only [h₁] at h
      match h₂ : applyDiffsKeys debug DiffDirection.apply cc.siacoinOutputDiffs ks₁ with
      | .error e => rw [h₂] at h; exact Except.noConfusion h
      | .ok ks₂ =>
        simp only [h₂] at h
        match h₃ : applyDiffsKeys debug DiffDirection.apply u ks₂ with
        | .error e => rw [h₃] at h; exact Except.noConfusion h
        | .ok ks₃ =>
          simp only [h₃] at h
          simp only [Except.ok.injEq] at h
          rw [← h]
          show w.age - (cc.revertedBlocks : Int) + (cc.appliedBlocks : Int)
            = w.age + ((cc.appliedBlocks : Int) - (cc.revertedBlocks : Int))
          omega

/-- No notification event occurs among diff-application events. -/
theorem count_notified_applied_map (dir : DiffDirection) (l : List SiacoinOutputDiff) :
    (l.map (Event.applied dir)).count Event.notified = 0 := by
  induction l with
  | nil => rfl
  | cons d ds ih => simp [List.count_cons, ih]

/-- C1.  A completed `ReceiveTransactionPoolUpdate` call performs its steps
in this strict order: revert every diff of the previous pending set, apply
every confirmed diff, replace the pending set and apply each of its diffs,
adjust the Age Counter, and finally notify the subscribers — the
notification occurring exactly once, after all mutation, on every completed
call (including calls with all-empty inputs). -/
theorem c1_strict_order_notify_once (debug : Bool) (w : Wallet) (cc : ConsensusChange)
    (txns : List Transaction) (u : List SiacoinOutputDiff) (w' : Wallet)
    (h : w.receiveTransactionPoolUpdate debug cc txns u = .ok w') :
    w'.trace = w.trace
      ++ (w.unconfirmedDiffs.map (Event.applied DiffDirection.revert)
        ++ cc.siacoinOutputDiffs.map (Event.applied DiffDirection.apply)
        ++ [Event.setPending u]
        ++ u.map (Event.applied DiffDirection.apply)
        ++ [Event.ageAdjusted cc.revertedBlocks cc.appliedBlocks]
        ++ [Event.notified]) ∧
    (w'.trace.drop w.trace.length).count Event.notified = 1 ∧
    (w'.trace.drop w.trace.length).getLast? = some Event.notified := by
  rw [receiveTPU_char] at h
  match h₁ : applyDiffsKeys debug DiffDirection.revert w.unconfirmedDiffs w.keys with
  | .error e => rw [h₁] at h; exact Except.noConfusion h
  | .ok ks₁ =>
    simp only [h₁] at h
    match h₂ : applyDiffsKeys debug DiffDirection.apply cc.siacoinOutputDiffs ks₁ with
    | .error e => rw [h₂] at h; exact Except.noConfusion h
    | .ok ks₂ =>
      simp only [h₂] at h
      match h₃ : applyDiffsKeys debug DiffDirection.apply u ks₂ with
      | .error e => rw [h₃] at h; exact Except.noConfusion h
      | .ok ks₃ =>
        simp only [h₃] at h
        simp only [Except.ok.injEq] at h
        have htr : w'.trace = w.trace
            ++ (w.unconfirmedDiffs.map (Event.applied DiffDirection.revert)
              ++ cc.siacoinOutputDiffs.map (Event.applied DiffDirection.apply)
              ++ [Event.setPending u]
              ++ u.map (Event.applied DiffDirection.apply)
              ++ [Event.ageAdjusted cc.revertedBlocks cc.appliedBlocks]
              ++ [Event.notified]) := by
          rw [← h]
          simp only [List.append_assoc]
        refine ⟨htr, ?_, ?_⟩
        · rw [htr, List.drop_left]
          simp [List.count_append, count_notified_applied_map, List.count_cons]
        · rw [htr, List.drop_left]
          rw [show w.unconfirmedDiffs.map (Event.applied DiffDirection.revert)
              ++ cc.siacoinOutputDiffs.map (Event.applied DiffDirection.apply)
              ++ [Event.setPending u]
              ++ u.map (Event.applied DiffDirection.apply)
              ++ [Event.ageAdjusted cc.revertedBlocks cc.appliedBlocks]
              ++ [Event.notified]
            = (w.unconfirmedDiffs.map (Event.applied DiffDirection.revert)
              ++ cc.siacoinOutputDiffs.map (Event.applied DiffDirection.apply)
              ++ [Event.setPending u]
              ++ u.map (Event.applied DiffDirection.apply)
              ++ [Event.ageAdjusted cc.revertedBlocks cc.appliedBlocks])
              ++ [Event.notified] from by simp [List.append_assoc]]
          exact List.getLast?_concat _

/-- Shape of a write produced by `diffStep`: either a fresh entry with
`spendable = true, age = 0` created because no entry existed, or an entry
that differs from the existing one at most in the spendable flag. -/
theorem diffStep_shape {debug : Bool} {d : SiacoinOutputDiff} {dir : DiffDirection}
    {cur : Option KnownOutput} {o' : KnownOutput}
    (h : diffStep debug d dir cur = .ok (some o')) :
    (cur = none ∧ o' = { id := d.id, output := d.siacoinOutput, spendable := true, age := 0 }) ∨
    (∃ c, cur = some c ∧ o'.id = c.id ∧ o'.output = c.output ∧ o'.age = c.age) := by
  unfold diffStep at h
  by_cases hdir : d.direction = dir
  · rw [if_pos hdir] at h
    match cur with
    | some c =>
      have h' : (if c.spendable = true then (Except.ok none : Except RunPanic (Option KnownOutput))
          else Except.ok (some { c with spendable := true })) = Except.ok (some o') := h
      by_cases hsp : c.spendable
      · rw [if_pos hsp] at h'
        simp at h'
      · rw [if_neg hsp] at h'
        simp only [Except.ok.injEq, Option.some.injEq] at h'
        exact Or.inr ⟨c, rfl, by rw [← h'], by rw [← h'], by rw [← h']⟩
    | none =>
      simp only [Except.ok.injEq, Option.some.injEq] at h
      exact Or.inl ⟨rfl, h.symm⟩
  · rw [if_neg hdir] at h
    match cur with
    | none => exact Except.noConfusion h
    | some c =>
      simp only [Except.ok.injEq, Option.some.injEq] at h
      exact Or.inr ⟨c, rfl, by rw [← h], by rw [← h], by rw [← h]⟩

/-- Ledger-entry persistence between two registries: every entry of the
first still exists in the second with the same identifier, payload and age
(only the spendable flag may differ). -/
def entriesPreserved (ks ks' : KeyMap) : Prop :=
  ∀ a i o, getEntry ks a i = some o →
    ∃ o', getEntry ks' a i = some o' ∧ o'.id = o.id ∧ o'.output = o.output ∧ o'.age = o.age

theorem entriesPreserved_refl (ks : KeyMap) : entriesPreserved ks ks :=
  fun _ _ o h => ⟨o, h, rfl, rfl, rfl⟩

theorem entriesPreserved_trans {ks₁ ks₂ ks₃ : KeyMap}
    (h₁ : entriesPreserved ks₁ ks₂) (h₂ : entriesPreserved ks₂ ks₃) :
    entriesPreserved ks₁ ks₃ := by
  intro a i o h
  obtain ⟨o₁, hg₁, hi₁, ho₁, ha₁⟩ := h₁ a i o h
  obtain ⟨o₂, hg₂, hi₂, ho₂, ha₂⟩ := h₂ a i o₁ hg₁
  exact ⟨o₂, hg₂, by rw [hi₂, hi₁], by rw [ho₂, ho₁], by rw [ha₂, ha₁]⟩

/-- One successful `applyDiffKeys` preserves every existing ledger entry up
to its spendable flag. -/
theorem applyDiffKeys_entriesPreserved {debug : Bool} {ks ks' : KeyMap}
    {d : SiacoinOutputDiff} {dir : DiffDirection}
    (h : applyDiffKeys debug ks d dir = .ok ks') : entriesPreserved ks ks' := by
  rw [applyDiffKeys_char] at h
  by_cases hk : (lookupA d.siacoinOutput.unlockHash ks).isSome
  · rw [if_pos hk] at h
    match hs : diffStep debug d dir (getEntry ks d.siacoinOutput.unlockHash d.id) with
    | .error e => rw [hs] at h; exact Except.noConfusion h
    | .ok none =>
      rw [hs] at h
      simp only [Except.ok.injEq] at h
      rw [← h]
      exact entriesPreserved_refl ks
    | .ok (some o') =>
      rw [hs] at h
      simp only [Except.ok.injEq] at h
      rw [← h]
      intro a i o hget
      by_cases hai : (a, i) = (d.siacoinOutput.unlockHash, d.id)
      · have ha : a = d.siacoinOutput.unlockHash := congrArg Prod.fst hai
        have hi : i = d.id := congrArg Prod.snd hai
        subst ha
        subst hi
        rcases diffStep_shape hs with ⟨hnone, _⟩ | ⟨c, hsome, hid, hout, hage⟩
        · rw [hget] at hnone
          exact Option.noConfusion hnone
        · rw [hget] at hsome
          have hco : c = o := by
            exact (Option.some.injEq c o ▸ hsome.symm :)
          refine ⟨o', getEntry_setEntry_self d.id o' hk, ?_, ?_, ?_⟩
          · rw [hid, hco]
          · rw [hout, hco]
          · rw [hage, hco]
      · exact ⟨o, by rw [getEntry_setEntry_ne hai]; exact hget, rfl, rfl, rfl⟩
  · rw [if_neg hk] at h
    simp only [Except.ok.injEq] at h
    rw [← h]
    exact entriesPreserved_refl ks

/-- A successful pass preserves every existing ledger entry up to its
spendable flag. -/
theorem applyDiffsKeys_entriesPreserved {debug : Bool} {dir : DiffDirection} :
    ∀ {ds : List SiacoinOutputDiff} {ks ks' : KeyMap},
      applyDiffsKeys debug dir ds ks = .ok ks' → entriesPreserved ks ks'
  | [], ks, ks', h => by
    simp only [applyDiffsKeys_nil, Except.ok.injEq] at h
    rw [← h]
    exact entriesPreserved_refl ks
  | d :: ds, ks, ks', h => by
    rw [applyDiffsKeys_cons] at h
    match h₁ : applyDiffKeys debug ks d dir with
    | .error e => rw [h₁] at h; exact Except.noConfusion h
    | .ok ks₁ =>
      rw [h₁] at h
      exact entriesPreserved_trans (applyDiffKeys_entriesPreserved h₁)
        (applyDiffsKeys_entriesPreserved h)

/-- C6.  Invariant preserved by `applyDiff` and by
`ReceiveTransactionPoolUpdate`: a ledger entry, once created, is never
deleted, re-created or aged — any later observation of the same identifier
under the same address finds the entry still present with the same
identifier, payload and age, only its spendable flag possibly toggled (in
particular an entry marked unspendable stays in the registry). -/
theorem c6_entries_never_recreated (debug : Bool) (w : Wallet) :
    (∀ (scod : SiacoinOutputDiff) (dir : DiffDirection) (w' : Wallet),
        w.applyDiff debug scod dir = .ok w' → entriesPreserved w.keys w'.keys) ∧
    (∀ (cc : ConsensusChange) (txns : List Transaction) (u : List SiacoinOutputDiff)
        (w' : Wallet),
        w.receiveTransactionPoolUpdate debug cc txns u = .ok w' →
        entriesPreserved w.keys w'.keys) := by
  constructor
  · intro scod dir w' h
    exact applyDiffKeys_entriesPreserved (applyDiff_ok_inv h).1
  · intro cc txns u w' h
    rw [receiveTPU_char] at h
    match h₁ : applyDiffsKeys debug DiffDirection.revert w.unconfirmedDiffs w.keys with
    | .error e => rw [h₁] at h; exact Except.noConfusion h
    | .ok ks₁ =>
      simp only [h₁] at h
      match h₂ : applyDiffsKeys debug DiffDirection.apply cc.siacoinOutputDiffs ks₁ with
      | .error e => rw [h₂] at h; exact Except.noConfusion h
      | .ok ks₂ =>
        simp only [h₂] at h
        match h₃ : applyDiffsKeys debug DiffDirection.apply u ks₂ with
        | .error e => rw [h₃] at h; exact Except.noConfusion h
        | .ok ks₃ =>
          simp only [h₃, Except.ok.injEq] at h
          have hkeys : w'.keys = ks₃ := by rw [← h]
          rw [hkeys]
          exact entriesPreserved_trans (applyDiffsKeys_entriesPreserved h₁)
            (entriesPreserved_trans (applyDiffsKeys_entriesPreserved h₂)
              (applyDiffsKeys_entriesPreserved h₃))

theorem knownOutput_set_spendable_self {o : KnownOutput} {b : Bool}
    (h : o.spendable = b) : { o with spendable := b } = o := by
  cases o
  subst h
  rfl

/-- Re-applying a diff whose entry is already spendable (with matching pass
direction) changes nothing but the instrumentation trace. -/
theorem applyDiff_spendable_noop (debug : Bool) {w : Wallet} {scod : SiacoinOutputDiff}
    {dir : DiffDirection} (hdir : scod.direction = dir) {e : KnownOutput}
    (hget : getEntry w.keys scod.siacoinOutput.unlockHash scod.id = some e)
    (hsp : e.spendable = true) :
    w.applyDiff debug scod dir =
      .ok { w with trace := w.trace ++ [Event.applied dir scod] } := by
  have hks : applyDiffKeys debug w.keys scod dir = .ok w.keys := by
    rw [applyDiffKeys_char]
    by_cases hc : (lookupA scod.siacoinOutput.unlockHash w.keys).isSome
    · rw [if_pos hc, hget]
      simp [diffStep, hdir, hsp]
    · rw [if_neg hc]
  exact applyDiff_of_keys hks

/-- C3.  Forward application at a controlled address: if no ledger entry
exists for the diff's identifier, exactly one entry is created, spendable
with age 0; if an entry exists it is (re-)marked spendable and no entry is
added; if it was already spendable the wallet state is unchanged.
Consequently a second application of the same diff is state-preserving:
same entry, no duplicates, no error. -/
theorem c3_forward_application (debug : Bool) (w : Wallet) (scod : SiacoinOutputDiff)
    (dir : DiffDirection)
    (hctrl : (lookupA scod.siacoinOutput.unlockHash w.keys).isSome = true)
    (hdir : scod.direction = dir) :
    ∃ w', w.applyDiff debug scod dir = .ok w' ∧
      (getEntry w.keys scod.siacoinOutput.unlockHash scod.id = none →
        getEntry w'.keys scod.siacoinOutput.unlockHash scod.id
            = some { id := scod.id, output := scod.siacoinOutput, spendable := true, age := 0 } ∧
        outputsCount w'.keys scod.siacoinOutput.unlockHash
            = outputsCount w.keys scod.siacoinOutput.unlockHash + 1) ∧
      (∀ o : KnownOutput, getEntry w.keys scod.siacoinOutput.unlockHash scod.id = some o →
        getEntry w'.keys scod.siacoinOutput.unlockHash scod.id
            = some { o with spendable := true } ∧
        outputsCount w'.keys scod.siacoinOutput.unlockHash
            = outputsCount w.keys scod.siacoinOutput.unlockHash ∧
        (o.spendable = true → w'.keys = w.keys ∧
          w'.unconfirmedDiffs = w.unconfirmedDiffs ∧ w'.age = w.age)) ∧
      (∃ w'' : Wallet, w'.applyDiff debug scod dir = .ok w'' ∧ w''.keys = w'.keys ∧
        w''.unconfirmedDiffs = w'.unconfirmedDiffs ∧ w''.age = w'.age) := by
  obtain ⟨key, hk⟩ := Option.isSome_iff_exists.mp hctrl
  match hcur : getEntry w.keys scod.siacoinOutput.unlockHash scod.id with
  | none =>
    have hks : applyDiffKeys debug w.keys scod dir =
        .ok (setEntry w.keys scod.siacoinOutput.unlockHash scod.id
          { id := scod.id, output := scod.siacoinOutput, spendable := true, age := 0 }) := by
      rw [applyDiffKeys_char, if_pos hctrl, hcur]
      simp [diffStep, hdir]
    have hio : lookupA scod.id key.outputs = none := by
      have hc := hcur
      unfold getEntry at hc
      rw [hk] at hc
      simpa using hc
    refine ⟨_, applyDiff_of_keys hks, ?_, ?_, ?_⟩
    · intro _
      refine ⟨getEntry_setEntry_self scod.id _ hctrl, ?_⟩
      show outputsCount (setEntry w.keys scod.siacoinOutput.unlockHash scod.id _)
          scod.siacoinOutput.unlockHash = _
      rw [outputsCount_setEntry hk, outputsCount_of_lookupA_some hk, hio]
      rfl
    · intro o ho
      exact Option.noConfusion ho
    · refine ⟨_, applyDiff_spendable_noop debug hdir
        (getEntry_setEntry_self scod.id _ hctrl) rfl, rfl, rfl, rfl⟩
  | some o =>
    have hio : lookupA scod.id key.outputs = some o := by
      have hc := hcur
      unfold getEntry at hc
      rw [hk] at hc
      simpa using hc
    by_cases hsp : o.spendable
    · have hks : applyDiffKeys debug w.keys scod dir = .ok w.keys := by
        rw [applyDiffKeys_char, if_pos hctrl, hcur]
        simp [diffStep, hdir, hsp]
      refine ⟨_, applyDiff_of_keys hks, ?_, ?_, ?_⟩
      · intro hno
        exact Option.noConfusion hno
      · intro o' ho'
        have hoo : o = o' := by
          simpa using ho'
        subst hoo
        refine ⟨?_, rfl, fun _ => ⟨rfl, rfl, rfl⟩⟩
        show getEntry w.keys scod.siacoinOutput.unlockHash scod.id = _
        rw [hcur, knownOutput_set_spendable_self hsp]
      · exact ⟨_, applyDiff_spendable_noop debug hdir hcur hsp, rfl, rfl, rfl⟩
    · have hspf : o.spendable = false := by
        simpa using hsp
      have hks : applyDiffKeys debug w.keys scod dir =
          .ok (setEntry w.keys scod.siacoinOutput.unlockHash scod.id
            { o with spendable := true }) := by
        rw [applyDiffKeys_char, if_pos hctrl, hcur]
        simp [diffStep, hdir, hspf]
      refine ⟨_, applyDiff_of_keys hks, ?_, ?_, ?_⟩
      · intro hno
        exact Option.noConfusion hno
      · intro o' ho'
        have hoo : o = o' := by
          simpa using ho'
        subst hoo
        refine ⟨getEntry_setEntry_self scod.id _ hctrl, ?_, ?_⟩
        · show outputsCount (setEntry w.keys scod.siacoinOutput.unlockHash scod.id _)
            scod.siacoinOutput.unlockHash = _
          rw [outputsCount_setEntry hk, outputsCount_of_lookupA_some hk, hio]
          rfl
        · intro hct
          rw [hct] at hspf
          exact Bool.noConfusion hspf
      · refine ⟨_, applyDiff_spendable_noop debug hdir
          (getEntry_setEntry_self scod.id _ hctrl) rfl, rfl, rfl, rfl⟩

/-- C4 (amended).  Reverting a diff at a controlled address when no ledger
entry exists for its identifier halts the call in *both* build modes: the
debug build hits the explicit assertion, and the non-debug build panics on
the nil-pointer write `key.outputs[scod.ID].spendable = false` — the call is
not a silent no-op in production. -/
theorem c4_missing_entry_panics (debug : Bool) (w : Wallet) (scod : SiacoinOutputDiff)
    (dir : DiffDirection) (key : Key)
    (hk : lookupA scod.siacoinOutput.unlockHash w.keys = some key)
    (hdir : scod.direction ≠ dir)
    (hmiss : lookupA scod.id key.outputs = none) :
    w.applyDiff debug scod dir =
      .error (if debug then RunPanic.assertMissingOutput
              else RunPanic.nilPointerDereference) := by
  have hget : getEntry w.keys scod.siacoinOutput.unlockHash scod.id = none := by
    unfold getEntry
    rw [hk]
    exact hmiss
  have hks : applyDiffKeys debug w.keys scod dir =
      .error (if debug then RunPanic.assertMissingOutput
              else RunPanic.nilPointerDereference) := by
    rw [applyDiffKeys_char, if_pos (by simp [hk]), hget]
    simp [diffStep, hdir]
  exact applyDiff_of_keys_error hks

/-- C5 (amended).  Revert/apply inverse for a single diff `d` at a
controlled address: *provided* the pre-existing entry's spendable flag is
opposite to the flag the forward pass writes (unspendable for an
apply-direction diff, spendable for a revert-direction diff),
`applyDiff(d, forward)` followed by `applyDiff(d, reverse)` restores the
wallet's entire ledger — in particular that entry's spendable flag — and
creates no new entries. -/
theorem c5_revert_apply_inverse (debug : Bool) (w : Wallet) (d : SiacoinOutputDiff)
    (o : KnownOutput)
    (hctrl : (lookupA d.siacoinOutput.unlockHash w.keys).isSome = true)
    (hget : getEntry w.keys d.siacoinOutput.unlockHash d.id = some o)
    (hflag : o.spendable = revertFlag d.direction) :
    ∃ w₁ w₂, w.applyDiff debug d DiffDirection.apply = .ok w₁ ∧
      w₁.applyDiff debug d DiffDirection.revert = .ok w₂ ∧
      w₂.keys = w.keys ∧ w₂.unconfirmedDiffs = w.unconfirmedDiffs ∧ w₂.age = w.age := by
  have hcond : okCondB w.keys d = true := by
    unfold okCondB
    rw [if_pos hctrl, hget]
    simp [hflag]
  obtain ⟨o', hge', hsp', happly, hrev⟩ := apply_revert_gen debug hctrl hcond
  have hsome₁ : (lookupA d.siacoinOutput.unlockHash
      (setEntry w.keys d.siacoinOutput.unlockHash d.id
        { o' with spendable := !o'.spendable })).isSome = true := by
    rw [lookupA_isSome_setEntry]
    exact hctrl
  have hge₁ : getEntry (setEntry w.keys d.siacoinOutput.unlockHash d.id
      { o' with spendable := !o'.spendable }) d.siacoinOutput.unlockHash d.id
      = some { o' with spendable := !o'.spendable } :=
    getEntry_setEntry_self d.id _ hctrl
  have hrevk := hrev _ hsome₁ hge₁
  refine ⟨_, _, applyDiff_of_keys happly, applyDiff_of_keys hrevk, ?_, rfl, rfl⟩
  show setEntry (setEntry w.keys d.siacoinOutput.unlockHash d.id
      { o' with spendable := !o'.spendable }) d.siacoinOutput.unlockHash d.id o' = w.keys
  rw [setEntry_setEntry_self, setEntry_getEntry_self hge']

/-- C7.  The Pending Diff Set is fully replaced, never merged: after a
completed call the stored unconfirmed set is exactly the newly supplied
one; and in the concrete replacement scenario — the previous pending set
was a single applied forward diff for an existing entry, the new pending
set is empty, and no confirmed diff of the call touches that ledger cell —
the entry ends the call unspendable (its application has been unwound). -/
theorem c7_pending_wholesale_replacement (debug : Bool) (w : Wallet)
    (cc : ConsensusChange) (txns : List Transaction) (u : List SiacoinOutputDiff)
    (w' : Wallet) (d : SiacoinOutputDiff) (o : KnownOutput)
    (h : w.receiveTransactionPoolUpdate debug cc txns u = .ok w') :
    w'.unconfirmedDiffs = u ∧
    ((w.unconfirmedDiffs = [d] ∧ d.direction = DiffDirection.apply ∧
      (lookupA d.siacoinOutput.unlockHash w.keys).isSome = true ∧
      getEntry w.keys d.siacoinOutput.unlockHash d.id = some o ∧
      u = [] ∧
      (∀ c ∈ cc.siacoinOutputDiffs,
        (d.siacoinOutput.unlockHash, d.id) ≠ target c)) →
      getEntry w'.keys d.siacoinOutput.unlockHash d.id
        = some { o with spendable := false }) := by
  rw [receiveTPU_char] at h
  match h₁ : applyDiffsKeys debug DiffDirection.revert w.unconfirmedDiffs w.keys with
  | .error e => rw [h₁] at h; exact Except.noConfusion h
  | .ok ks₁ =>
    simp only [h₁] at h
    match h₂ : applyDiffsKeys debug DiffDirection.apply cc.siacoinOutputDiffs ks₁ with
    | .error e => rw [h₂] at h; exact Except.noConfusion h
    | .ok ks₂ =>
      simp only [h₂] at h
      match h₃ : applyDiffsKeys debug DiffDirection.apply u ks₂ with
      | .error e => rw [h₃] at h; exact Except.noConfusion h
      | .ok ks₃ =>
        simp only [h₃, Except.ok.injEq] at h
        constructor
        · rw [← h]
        · rintro ⟨hP, hdirA, hctrl, hget, hu, hcc⟩
          rw [hP] at h₁
          have hstep : applyDiffKeys debug w.keys d DiffDirection.revert =
              .ok (setEntry w.keys d.siacoinOutput.unlockHash d.id
                { o with spendable := false }) := by
            rw [applyDiffKeys_char, if_pos hctrl, hget]
            simp [diffStep, hdirA]
          rw [applyDiffsKeys_cons, hstep] at h₁
          have hks₁ : ks₁ = setEntry w.keys d.siacoinOutput.unlockHash d.id
              { o with spendable := false } := by
            have h₁' : applyDiffsKeys debug DiffDirection.revert []
                (setEntry w.keys d.siacoinOutput.unlockHash d.id
                  { o with spendable := false }) = .ok ks₁ := h₁
            simp only [applyDiffsKeys_nil, Except.ok.injEq] at h₁'
            rw [h₁']
          have hg₁ : getEntry ks₁ d.siacoinOutput.unlockHash d.id
              = some { o with spendable := false } := by
            rw [hks₁]
            exact getEntry_setEntry_self d.id _ hctrl
          have hg₂ : getEntry ks₂ d.siacoinOutput.unlockHash d.id
              = some { o with spendable := false } := by
            rw [applyDiffsKeys_getEntry_ne h₂ hcc, hg₁]
          have hks₃ : ks₃ = ks₂ := by
            rw [hu] at h₃
            simp only [applyDiffsKeys_nil, Except.ok.injEq] at h₃
            rw [h₃]
          have hwk : w'.keys = ks₃ := by rw [← h]
          rw [hwk, hks₃]
          exact hg₂

/-- Modelled from the spec: the notional reference sequence of the
full-cycle equivalence property — "apply the confirmed diffs `C` forward,
then apply the new unconfirmed diffs `U'` forward" — expressed at the
registry level.  (This definition follows the specification's words; it is
the yardstick the two-call sequence is compared against.) -/
def notionalApply (debug : Bool) (confirmed newPending : List SiacoinOutputDiff)
    (ks : KeyMap) : Except RunPanic KeyMap :=
  match applyDiffsKeys debug DiffDirection.apply confirmed ks with
  | .error e => .error e
  | .ok ks₁ => applyDiffsKeys debug DiffDirection.apply newPending ks₁

/-- Success introduction for `ReceiveTransactionPoolUpdate`: when the three
registry-level passes succeed, the call completes and the resulting wallet
carries the final registry, the new pending set and the shifted age. -/
theorem receiveTPU_ok_of (debug : Bool) (w : Wallet) (cc : ConsensusChange)
    (txns : List Transaction) (u : List SiacoinOutputDiff) {ks₁ ks₂ ks₃ : KeyMap}
    (hr : applyDiffsKeys debug DiffDirection.revert w.unconfirmedDiffs w.keys = .ok ks₁)
    (hc : applyDiffsKeys debug DiffDirection.apply cc.siacoinOutputDiffs ks₁ = .ok ks₂)
    (hu : applyDiffsKeys debug DiffDirection.apply u ks₂ = .ok ks₃) :
    ∃ w', w.receiveTransactionPoolUpdate debug cc txns u = .ok w' ∧
      w'.keys = ks₃ ∧ w'.unconfirmedDiffs = u ∧
      w'.age = w.age - (cc.revertedBlocks : Int) + (cc.appliedBlocks : Int) := by
  rw [receiveTPU_char]
  simp only [hr, hc, hu]
  exact ⟨_, rfl, rfl, rfl, rfl⟩

/-- C2 (amended).  Full-cycle equivalence: starting from a wallet with an
empty pending set, `reconcile(C, 0, 0, U)` immediately followed by
`reconcile({}, 0, 0, U')` ends in the same ledger and Age Counter as the
notional sequence "apply `C`, then apply `U'`" — *provided* the diffs of
`U` target pairwise-distinct ledger cells and each is exactly invertible
against the post-`C` ledger (an apply-direction diff finds its entry
unspendable, a revert-direction diff finds it spendable; in particular no
diff of `U` duplicates an already-spendable output and no apply-direction
diff of `U` is brand new).  The second call's unwind then exactly cancels
`U`, and the stored pending set ends as `U'`. -/
theorem c2_full_cycle_equivalence (debug : Bool) (w : Wallet)
    (C U U' : List SiacoinOutputDiff) (txns₁ txns₂ : List Transaction)
    (ksC ksF : KeyMap)
    (hpend : w.unconfirmedDiffs = [])
    (hC : applyDiffsKeys debug DiffDirection.apply C w.keys = .ok ksC)
    (hnd : (U.map target).Nodup)
    (hcond : ∀ d ∈ U, okCondB ksC d = true)
    (hU' : applyDiffsKeys debug DiffDirection.apply U' ksC = .ok ksF) :
    ∃ w₁ w₂,
      w.receiveTransactionPoolUpdate debug ⟨C, 0, 0⟩ txns₁ U = .ok w₁ ∧
      w₁.receiveTransactionPoolUpdate debug ⟨[], 0, 0⟩ txns₂ U' = .ok w₂ ∧
      notionalApply debug C U' w.keys = .ok ksF ∧
      w₂.keys = ksF ∧ w₂.unconfirmedDiffs = U' ∧ w₂.age = w.age := by
  obtain ⟨ksU, hak, hrk⟩ := unwind_cancels debug U ksC hnd hcond
  obtain ⟨w₁, h1, h1k, h1u, h1a⟩ :=
    receiveTPU_ok_of debug w ⟨C, 0, 0⟩ txns₁ U
      (by rw [hpend]; rfl) hC hak
  obtain ⟨w₂, h2, h2k, h2u, h2a⟩ :=
    receiveTPU_ok_of debug w₁ ⟨[], 0, 0⟩ txns₂ U'
      (by rw [h1u, h1k]; exact hrk) rfl hU'
  refine ⟨w₁, w₂, h1, h2, ?_, h2k, h2u, ?_⟩
  · unfold notionalApply
    rw [hC]
    exact hU'
  · rw [h2a, h1a]
    simp

/-! ### Concrete instances used by the witnesses and counterexamples -/

def sampleOutput : SiacoinOutput := { value := 100, unlockHash := 1 }

/-- An apply-direction diff for output 5 addressed to wallet address 1. -/
def sampleDiffA : SiacoinOutputDiff :=
  { direction := DiffDirection.apply, id := 5, siacoinOutput := sampleOutput }

/-- A diff for an address (2) the sample wallets do not control. -/
def sampleDiffB : SiacoinOutputDiff :=
  { direction := DiffDirection.apply, id := 9,
    siacoinOutput := { value := 7, unlockHash := 2 } }

def sampleEntryFalse : KnownOutput :=
  { id := 5, output := sampleOutput, spendable := false, age := 0 }

def sampleEntryTrue : KnownOutput :=
  { id := 5, output := sampleOutput, spendable := true, age := 0 }

/-- Wallet controlling address 1 with an unspendable entry for output 5. -/
def walletUnspent : Wallet :=
  { keys := [(1, { outputs := [(5, sampleEntryFalse)] })],
    unconfirmedDiffs := [], age := 0, trace := [] }

/-- Wallet controlling address 1 with a spendable entry for output 5. -/
def walletSpent : Wallet :=
  { keys := [(1, { outputs := [(5, sampleEntryTrue)] })],
    unconfirmedDiffs := [], age := 0, trace := [] }

/-- Wallet controlling address 1 with no ledger entries. -/
def walletEmptyKey : Wallet :=
  { keys := [(1, { outputs := [] })],
    unconfirmedDiffs := [], age := 0, trace := [] }

/-- Wallet whose pending set holds `sampleDiffA`, already applied. -/
def walletPending : Wallet :=
  { keys := [(1, { outputs := [(5, sampleEntryTrue)] })],
    unconfirmedDiffs := [sampleDiffA], age := 0, trace := [] }

def c1ResultW : Wallet :=
  { keys := [(1, { outputs := [] })], unconfirmedDiffs := [], age := 0,
    trace := [Event.setPending [], Event.ageAdjusted 0 0, Event.notified] }

def c6ResultW : Wallet :=
  { keys := [(1, { outputs := [(5, sampleEntryTrue)] })],
    unconfirmedDiffs := [], age := 0,
    trace := [Event.applied DiffDirection.apply sampleDiffA] }

def c7ResultW : Wallet :=
  { keys := [(1, { outputs := [(5, sampleEntryFalse)] })],
    unconfirmedDiffs := [], age := 0,
    trace := [Event.applied DiffDirection.revert sampleDiffA,
      Event.setPending [], Event.ageAdjusted 0 0, Event.notified] }

def c8ResultW : Wallet :=
  { keys := [(1, { outputs := [(5, sampleEntryTrue)] })],
    unconfirmedDiffs := [], age := 0,
    trace := [Event.applied DiffDirection.apply sampleDiffA] }

def c8ResultW2 : Wallet :=
  { keys := [(1, { outputs := [] })], unconfirmedDiffs := [], age := 1,
    trace := [Event.setPending [], Event.ageAdjusted 1 2, Event.notified] }

/-! ### Witnesses and counterexamples -/

theorem c1_witness :
    walletEmptyKey.receiveTransactionPoolUpdate false ⟨[], 0, 0⟩ [] [] = .ok c1ResultW ∧
    (c1ResultW.trace.drop walletEmptyKey.trace.length).count Event.notified = 1 ∧
    (c1ResultW.trace.drop walletEmptyKey.trace.length).getLast? = some Event.notified :=
  ⟨rfl,
    (c1_strict_order_notify_once false walletEmptyKey ⟨[], 0, 0⟩ [] [] c1ResultW rfl).2.1,
    (c1_strict_order_notify_once false walletEmptyKey ⟨[], 0, 0⟩ [] [] c1ResultW rfl).2.2⟩

theorem c2_witness :
    walletUnspent.unconfirmedDiffs = [] ∧
    ([sampleDiffA].map target).Nodup ∧
    (∀ d ∈ [sampleDiffA], okCondB walletUnspent.keys d = true) ∧
    (∃ w₁ w₂,
      walletUnspent.receiveTransactionPoolUpdate false ⟨[], 0, 0⟩ [] [sampleDiffA]
        = .ok w₁ ∧
      w₁.receiveTransactionPoolUpdate false ⟨[], 0, 0⟩ [] [] = .ok w₂ ∧
      notionalApply false [] [] walletUnspent.keys = .ok walletUnspent.keys ∧
      w₂.keys = walletUnspent.keys ∧ w₂.unconfirmedDiffs = [] ∧
      w₂.age = walletUnspent.age) :=
  ⟨rfl, by decide, by decide,
    c2_full_cycle_equivalence false walletUnspent [] [sampleDiffA] [] [] []
      walletUnspent.keys walletUnspent.keys rfl rfl (by decide) (by decide) rfl⟩

/-- C2 counterexample: with an already-spendable entry for output 5,
the unconfirmed diff for 5 is a duplicate observation — its application is
a no-op but its unwind still marks the entry unspendable, so the two-call
sequence and the notional "apply C then apply U'"" sequence end in
different states (spendable `false` vs `true`). -/
theorem c2_counterexample :
    ((walletSpent.receiveTransactionPoolUpdate false ⟨[], 0, 0⟩ [] [sampleDiffA]
        >>= fun w₁ => w₁.receiveTransactionPoolUpdate false ⟨[], 0, 0⟩ [] []).map
      (fun w₂ => getEntry w₂.keys 1 5)).toOption
      = some (some { id := 5, output := sampleOutput, spendable := false, age := 0 }) ∧
    ((notionalApply false [] [] walletSpent.keys).map
      (fun ks => getEntry ks 1 5)).toOption
      = some (some { id := 5, output := sampleOutput, spendable := true, age := 0 }) ∧
    ¬(((walletSpent.receiveTransactionPoolUpdate false ⟨[], 0, 0⟩ [] [sampleDiffA]
        >>= fun w₁ => w₁.receiveTransactionPoolUpdate false ⟨[], 0, 0⟩ [] []).map
      (fun w₂ => getEntry w₂.keys 1 5)).toOption
      = ((notionalApply false [] [] walletSpent.keys).map
        (fun ks => getEntry ks 1 5)).toOption) :=
  ⟨by decide, by decide, by decide⟩

theorem c3_witness :
    (lookupA sampleDiffA.siacoinOutput.unlockHash walletUnspent.keys).isSome = true ∧
    sampleDiffA.direction = DiffDirection.apply ∧
    (∃ w', walletUnspent.applyDiff false sampleDiffA DiffDirection.apply = .ok w') :=
  ⟨by decide, rfl,
    Exists.imp (fun w' hh => hh.1)
      (c3_forward_application false walletUnspent sampleDiffA DiffDirection.apply
        (by decide) rfl)⟩

theorem c4_witness :
    lookupA sampleDiffA.siacoinOutput.unlockHash walletEmptyKey.keys
      = some { outputs := [] } ∧
    sampleDiffA.direction ≠ DiffDirection.revert ∧
    lookupA sampleDiffA.id (Key.outputs { outputs := [] }) = none ∧
    walletEmptyKey.applyDiff false sampleDiffA DiffDirection.revert =
      .error (if false then RunPanic.assertMissingOutput
              else RunPanic.nilPointerDereference) :=
  ⟨rfl, by decide, rfl,
    c4_missing_entry_panics false walletEmptyKey sampleDiffA DiffDirection.revert
      { outputs := [] } rfl (by decide) rfl⟩

/-- C4 counterexample: in a non-debug build, reverting a diff whose entry
does not exist is *not* silently ignored — the call panics (nil-pointer
dereference), so it never returns the unchanged wallet. -/
theorem c4_counterexample :
    walletEmptyKey.applyDiff false sampleDiffA DiffDirection.revert
      = .error RunPanic.nilPointerDereference ∧
    (walletEmptyKey.applyDiff false sampleDiffA DiffDirection.revert).isOk = false :=
  ⟨rfl, rfl⟩

theorem c5_witness :
    (lookupA sampleDiffA.siacoinOutput.unlockHash walletUnspent.keys).isSome = true ∧
    getEntry walletUnspent.keys sampleDiffA.siacoinOutput.unlockHash sampleDiffA.id
      = some sampleEntryFalse ∧
    sampleEntryFalse.spendable = revertFlag sampleDiffA.direction ∧
    (∃ w₁ w₂, walletUnspent.applyDiff false sampleDiffA DiffDirection.apply = .ok w₁ ∧
      w₁.applyDiff false sampleDiffA DiffDirection.revert = .ok w₂ ∧
      w₂.keys = walletUnspent.keys ∧
      w₂.unconfirmedDiffs = walletUnspent.unconfirmedDiffs ∧
      w₂.age = walletUnspent.age) :=
  ⟨by decide, by decide, rfl,
    c5_revert_apply_inverse false walletUnspent sampleDiffA sampleEntryFalse
      (by decide) (by decide) rfl⟩

/-- C5 counterexample: when the entry is already spendable, the forward
application of an apply-direction diff is a no-op, but the revert still
marks the entry unspendable — the pre-sequence spendable flag (`true`) is
not restored (the sequence ends with `false`). -/
theorem c5_counterexample :
    getEntry walletSpent.keys 1 5
      = some { id := 5, output := sampleOutput, spendable := true, age := 0 } ∧
    ((walletSpent.applyDiff false sampleDiffA DiffDirection.apply
        >>= fun w₁ => w₁.applyDiff false sampleDiffA DiffDirection.revert).map
      (fun w₂ => getEntry w₂.keys 1 5)).toOption
      = some (some { id := 5, output := sampleOutput, spendable := false, age := 0 }) ∧
    ¬(((walletSpent.applyDiff false sampleDiffA DiffDirection.apply
        >>= fun w₁ => w₁.applyDiff false sampleDiffA DiffDirection.revert).map
      (fun w₂ => (getEntry w₂.keys 1 5).map KnownOutput.spendable)).toOption
      = some ((getEntry walletSpent.keys 1 5).map KnownOutput.spendable)) :=
  ⟨rfl, by decide, by decide⟩

theorem c6_witness :
    walletUnspent.applyDiff false sampleDiffA DiffDirection.apply = .ok c6ResultW ∧
    entriesPreserved walletUnspent.keys c6ResultW.keys :=
  ⟨rfl, (c6_entries_never_recreated false walletUnspent).1 sampleDiffA
    DiffDirection.apply c6ResultW rfl⟩

theorem c7_witness :
    walletPending.receiveTransactionPoolUpdate false ⟨[], 0, 0⟩ [] [] = .ok c7ResultW ∧
    c7ResultW.unconfirmedDiffs = [] ∧
    getEntry c7ResultW.keys sampleDiffA.siacoinOutput.unlockHash sampleDiffA.id
      = some { sampleEntryTrue with spendable := false } :=
  ⟨rfl,
    (c7_pending_wholesale_replacement false walletPending ⟨[], 0, 0⟩ [] [] c7ResultW
      sampleDiffA sampleEntryTrue rfl).1,
    (c7_pending_wholesale_replacement false walletPending ⟨[], 0, 0⟩ [] [] c7ResultW
      sampleDiffA sampleEntryTrue rfl).2
      ⟨rfl, rfl, by decide, by decide, rfl, by simp⟩⟩

theorem c8_witness :
    walletEmptyKey.applyDiff false sampleDiffA DiffDirection.apply = .ok c8ResultW ∧
    c8ResultW.age = walletEmptyKey.age ∧
    walletEmptyKey.receiveTransactionPoolUpdate false ⟨[], 1, 2⟩ [] [] = .ok c8ResultW2 ∧
    c8ResultW2.age = walletEmptyKey.age + (((2 : Nat) : Int) - ((1 : Nat) : Int)) :=
  ⟨rfl, (c8_age_counter false walletEmptyKey).1 sampleDiffA DiffDirection.apply
    c8ResultW rfl, rfl,
   (c8_age_counter false walletEmptyKey).2 ⟨[], 1, 2⟩ [] [] c8ResultW2 rfl⟩

theorem c9_witness :
    lookupA sampleDiffB.siacoinOutput.unlockHash walletEmptyKey.keys = none ∧
    (∃ w', walletEmptyKey.applyDiff false sampleDiffB DiffDirection.revert = .ok w' ∧
      w'.keys = walletEmptyKey.keys ∧
      w'.unconfirmedDiffs = walletEmptyKey.unconfirmedDiffs ∧
      w'.age = walletEmptyKey.age) :=
  ⟨rfl, c9_unknown_address_noop false walletEmptyKey sampleDiffB DiffDirection.revert rfl⟩
